import Mathlib

/-!
Verification of the Minesweeper knowledge-base inference engine
(`src/minesweeper.py`).  Python sets of board coordinates are modelled as
`Finset (ℤ × ℤ)`, Python (unbounded, signed) integers as `ℤ`, the mutable
`MinesweeperAI` object as an explicit state record threaded through each
operation, and the ordered list `self.knowledge` as a `List Sentence`.
Python's `for sentence in self.knowledge` loops are modelled by index so
that in-place mutation of sentences during iteration, and appends that
extend a running iteration (as happens in the subset-resolution loop of
`add_knowledge`), follow Python list-iterator semantics.
-/

namespace Minesweeper

/-- A board coordinate `(row, column)`; loop indices in the source range over
`cell ± 1` and may be negative, hence `ℤ`. -/
abbrev Cell := ℤ × ℤ

/-- `Sentence(cells, count)` from the source: a set of board cells and a count
of how many of them are mines. -/
structure Sentence where
  cells : Finset Cell
  count : ℤ
deriving DecidableEq

/-- `Sentence.known_mines`: returns `self.cells` if
`len(self.cells) == self.count and self.count != 0`, else the empty set.
The source returns without assigning to any field, so the embedding is a
pure function of the sentence. -/
def Sentence.known_mines (s : Sentence) : Finset Cell :=
  if (s.cells.card : ℤ) = s.count ∧ s.count ≠ 0 then s.cells else ∅

/-- `Sentence.known_safes`: returns `self.cells` if `self.count == 0`,
else the empty set. -/
def Sentence.known_safes (s : Sentence) : Finset Cell :=
  if s.count = 0 then s.cells else ∅

/-- `Sentence.mark_mine(cell)`: if the cell is a member, remove it and
decrement the count; otherwise no-op. -/
def Sentence.mark_mine (c : Cell) (s : Sentence) : Sentence :=
  if c ∈ s.cells then ⟨s.cells.erase c, s.count - 1⟩ else s

/-- `Sentence.mark_safe(cell)`: if the cell is a member, remove it
(count unchanged); otherwise no-op. -/
def Sentence.mark_safe (c : Cell) (s : Sentence) : Sentence :=
  if c ∈ s.cells then ⟨s.cells.erase c, s.count⟩ else s

/-- The state of a `MinesweeperAI` object: grid dimensions, the three
growing cell sets, and the ordered knowledge base. -/
structure AI where
  height : ℕ
  width : ℕ
  moves_made : Finset Cell
  mines : Finset Cell
  safes : Finset Cell
  knowledge : List Sentence
deriving DecidableEq

/-- `MinesweeperAI.__init__(height, width)`: empty sets, empty knowledge. -/
def AI.init (h w : ℕ) : AI := ⟨h, w, ∅, ∅, ∅, []⟩

/-- `MinesweeperAI.mark_mine(cell)`: add to `self.mines`, then
`sentence.mark_mine(cell)` on every sentence in `self.knowledge`. -/
def AI.mark_mine (c : Cell) (a : AI) : AI :=
  { a with mines := insert c a.mines,
           knowledge := a.knowledge.map (Sentence.mark_mine c) }

/-- `MinesweeperAI.mark_safe(cell)`: add to `self.safes`, then
`sentence.mark_safe(cell)` on every sentence in `self.knowledge`. -/
def AI.mark_safe (c : Cell) (a : AI) : AI :=
  { a with safes := insert c a.safes,
           knowledge := a.knowledge.map (Sentence.mark_safe c) }

/-- Marking two cells as mines in either order yields the same sentence:
the `for cells in mine.copy()` loop of `add_knowledge` iterates a Python
set, whose order is unspecified, so the embedding folds over the
unordered `Multiset` of the snapshot, which requires this commutation. -/
theorem Sentence.mark_mine_comm (c c' : Cell) (s : Sentence) :
    (s.mark_mine c).mark_mine c' = (s.mark_mine c').mark_mine c := by
  rcases eq_or_ne c c' with rfl | hcc
  · rfl
  · by_cases hc : c ∈ s.cells <;> by_cases hc' : c' ∈ s.cells <;>
      simp [Sentence.mark_mine, hc, hc', hcc, hcc.symm, Finset.erase_right_comm]

/-- Marking two cells as safe in either order yields the same sentence. -/
theorem Sentence.mark_safe_comm (c c' : Cell) (s : Sentence) :
    (s.mark_safe c).mark_safe c' = (s.mark_safe c').mark_safe c := by
  rcases eq_or_ne c c' with rfl | hcc
  · rfl
  · by_cases hc : c ∈ s.cells <;> by_cases hc' : c' ∈ s.cells <;>
      simp [Sentence.mark_safe, hc, hc', hcc, hcc.symm, Finset.erase_right_comm]

/-- Engine-level mine marks commute. -/
theorem AI.mark_mine_exchange (c c' : Cell) (a : AI) :
    AI.mark_mine c' (AI.mark_mine c a) = AI.mark_mine c (AI.mark_mine c' a) := by
  have h1 : insert c' (insert c a.mines) = insert c (insert c' a.mines) :=
    Finset.Insert.comm c' c a.mines
  have h2 : (a.knowledge.map (Sentence.mark_mine c)).map (Sentence.mark_mine c')
      = (a.knowledge.map (Sentence.mark_mine c')).map (Sentence.mark_mine c) := by
    simp only [List.map_map]
    exact List.map_congr_left fun s _ => Sentence.mark_mine_comm c c' s
  simp [AI.mark_mine, h1, h2]

/-- Engine-level safe marks commute. -/
theorem AI.mark_safe_exchange (c c' : Cell) (a : AI) :
    AI.mark_safe c' (AI.mark_safe c a) = AI.mark_safe c (AI.mark_safe c' a) := by
  have h1 : insert c' (insert c a.safes) = insert c (insert c' a.safes) :=
    Finset.Insert.comm c' c a.safes
  have h2 : (a.knowledge.map (Sentence.mark_safe c)).map (Sentence.mark_safe c')
      = (a.knowledge.map (Sentence.mark_safe c')).map (Sentence.mark_safe c) := by
    simp only [List.map_map]
    exact List.map_congr_left fun s _ => Sentence.mark_safe_comm c c' s
  simp [AI.mark_safe, h1, h2]

instance : RightCommutative (fun (st : AI) (c : Cell) => AI.mark_mine c st) :=
  ⟨fun b a₁ a₂ => AI.mark_mine_exchange a₁ a₂ b⟩

instance : RightCommutative (fun (st : AI) (c : Cell) => AI.mark_safe c st) :=
  ⟨fun b a₁ a₂ => AI.mark_safe_exchange a₁ a₂ b⟩

/-- Mark every cell of an (unordered) snapshot as a mine: the
`for cells in mine.copy(): self.mark_mine(cells)` loop. -/
def AI.markAllMines (cs : Multiset Cell) (a : AI) : AI :=
  cs.foldl (fun st c => AI.mark_mine c st) a

/-- Mark every cell of an (unordered) snapshot as safe: the
`for cells in safe.copy(): self.mark_safe(cells)` loop. -/
def AI.markAllSafes (cs : Multiset Cell) (a : AI) : AI :=
  cs.foldl (fun st c => AI.mark_safe c st) a

/-- One iteration of step 4 of `add_knowledge` at list position `n`:
read the sentence currently at position `n`, snapshot
`mine = sentence.known_mines()` and `safe = sentence.known_safes()`
(both computed before any marking, as in the source), then mark every
snapshot cell.  The `if mine:` / `if safe:` emptiness guards of the source
are no-ops for an empty snapshot and need no separate case. -/
def directStep (a : AI) (n : ℕ) : AI :=
  match a.knowledge.get? n with
  | none => a
  | some s =>
      AI.markAllSafes s.known_safes.val (AI.markAllMines s.known_mines.val a)

/-- Step 4 of `add_knowledge` (`for sentence in self.knowledge: ...`):
a single in-order sweep over the knowledge list.  Marking mutates
sentences in place but never changes the list's length, so the iteration
bound is the initial length, as for Python's list iterator. -/
def directPass (a : AI) : AI :=
  (List.range a.knowledge.length).foldl directStep a

/-- Step 5 of `add_knowledge`: the nested
`for set1 in self.knowledge: for set2 in self.knowledge:` loops, by index
`(i, j)` over the *growing* list (Python list iterators see elements
appended during iteration).  The four guards are those of the source, in
order; the final `else` branch is the source's `return None`, which exits
`add_knowledge` at once, abandoning the rest of the scan.  The `fuel`
argument makes the recursion structural; the loop always terminates (a
completed inner sweep only ever appends count-zero sentences, which are
inert), and `add_knowledge` supplies fuel exceeding the iteration count. -/
def subsetAux : ℕ → ℕ → ℕ → AI → AI
  | 0, _, _, a => a
  | fuel + 1, i, j, a =>
    if hi : i < a.knowledge.length then
      if hj : j < a.knowledge.length then
        if (a.knowledge.get ⟨i, hi⟩).count = 0 ∨ (a.knowledge.get ⟨j, hj⟩).count = 0 then
          subsetAux fuel i (j + 1) a
        else if (a.knowledge.get ⟨i, hi⟩).cells = (a.knowledge.get ⟨j, hj⟩).cells then
          subsetAux fuel i (j + 1) a
        else if (a.knowledge.get ⟨i, hi⟩).cells.card = 0 ∨
            (a.knowledge.get ⟨j, hj⟩).cells.card = 0 then
          subsetAux fuel i (j + 1) a
        else if (a.knowledge.get ⟨i, hi⟩).cells ⊆ (a.knowledge.get ⟨j, hj⟩).cells then
          subsetAux fuel i (j + 1)
            { a with knowledge := a.knowledge ++
                [⟨(a.knowledge.get ⟨j, hj⟩).cells \ (a.knowledge.get ⟨i, hi⟩).cells,
                  (a.knowledge.get ⟨j, hj⟩).count - (a.knowledge.get ⟨i, hi⟩).count⟩] }
        else a
      else subsetAux fuel (i + 1) 0 a
    else a

/-- Step 5 of `add_knowledge`, started at `(i, j) = (0, 0)` with fuel that
is an upper bound on the number of loop iterations. -/
def subsetPass (a : AI) : AI :=
  subsetAux ((a.knowledge.length * a.knowledge.length + a.knowledge.length + 2) ^ 2) 0 0 a

/-- Steps 4 and 5 of `add_knowledge`: the propagation performed after the
new sentence has been appended. -/
def propagate (a : AI) : AI := subsetPass (directPass a)

/-- Bounds test `0 <= i < self.height and 0 <= j < self.width`. -/
def InB (h w : ℕ) (c : Cell) : Prop :=
  0 ≤ c.1 ∧ c.1 < (h : ℤ) ∧ 0 ≤ c.2 ∧ c.2 < (w : ℤ)

instance (h w : ℕ) (c : Cell) : Decidable (InB h w c) :=
  inferInstanceAs (Decidable (0 ≤ c.1 ∧ c.1 < (h : ℤ) ∧ 0 ≤ c.2 ∧ c.2 < (w : ℤ)))

/-- The eight cells within one row and one column of `cell`, the cell
itself excluded — the iteration space of the neighbour loops in
`Minesweeper.nearby_mines` and `MinesweeperAI.add_knowledge`, in row-major
order. -/
def nbhd (cell : Cell) : List Cell :=
  [(cell.1 - 1, cell.2 - 1), (cell.1 - 1, cell.2), (cell.1 - 1, cell.2 + 1),
   (cell.1, cell.2 - 1), (cell.1, cell.2 + 1),
   (cell.1 + 1, cell.2 - 1), (cell.1 + 1, cell.2), (cell.1 + 1, cell.2 + 1)]

/-- `Minesweeper.nearby_mines(cell)`: the number of true mines (`M` is the
set of mined coordinates of the board) among the in-bounds neighbours of
`cell`. -/
def nearby_mines (M : Finset Cell) (h w : ℕ) (cell : Cell) : ℕ :=
  (nbhd cell).countP (fun c => decide (InB h w c ∧ c ∈ M))

/-- `MinesweeperAI.add_knowledge(cell, count)`.
Step 1/2: record the move and mark the cell safe.  Step 3: one loop over
the eight neighbours decrements `count` for each neighbour in `self.mines`
(this membership test precedes the bounds test in the source) and collects
the in-bounds neighbours in neither `self.mines` nor `self.safes`; the
resulting sentence is appended unconditionally.  `self.mines` and
`self.safes` do not change during that loop, so the two effects are
computed independently.  Steps 4/5: `propagate`. -/
def add_knowledge (a : AI) (cell : Cell) (count : ℤ) : AI :=
  let a1 := AI.mark_safe cell { a with moves_made := insert cell a.moves_made }
  let newCount : ℤ := count - ((nbhd cell).countP (fun c => decide (c ∈ a1.mines)) : ℕ)
  let newCells : Finset Cell :=
    ((nbhd cell).filter
      (fun c => decide (InB a1.height a1.width c ∧ c ∉ a1.mines ∧ c ∉ a1.safes))).toFinset
  propagate { a1 with knowledge := a1.knowledge ++ [⟨newCells, newCount⟩] }

/-- `MinesweeperAI.make_random_move`: the `possibles_moves` list, built in
row-major order over the grid. -/
def possible_moves (a : AI) : List Cell :=
  (List.range a.height).flatMap (fun i =>
    (List.range a.width).filterMap (fun j =>
      if ((i : ℤ), (j : ℤ)) ∉ a.moves_made ∧ ((i : ℤ), (j : ℤ)) ∉ a.mines
      then some ((i : ℤ), (j : ℤ)) else none))

/-- `MinesweeperAI.make_random_move`: `random.choice` over a nonempty
`possibles_moves` is modelled by an externally supplied index `k`
(randomness as an injected source); `None` when the list is empty.  The
source reads `self.height`, `self.width`, `self.moves_made`, `self.mines`
and assigns no field, so the embedding is a pure function of the state. -/
def make_random_move (a : AI) (k : ℕ) : Option Cell :=
  if h : (possible_moves a).length ≠ 0 then
    some ((possible_moves a).get
      ⟨k % (possible_moves a).length, Nat.mod_lt _ (Nat.pos_of_ne_zero h)⟩)
  else none

/-- `make_random_move` in state-passing form: the method body contains no
assignment to `self`, so the state component is the receiver unchanged. -/
def make_random_move_state (a : AI) (k : ℕ) : Option Cell × AI :=
  (make_random_move a k, a)

/-- Truthful game traces: states reachable from a fresh engine by
`add_knowledge` calls whose `cell` is an in-bounds non-mine cell and whose
`count` is the true number of mines among its in-bounds neighbours
(`M` is the board's mine set). -/
inductive Reaches (M : Finset Cell) (h w : ℕ) : AI → Prop
  | init : Reaches M h w (AI.init h w)
  | step (a : AI) (cell : Cell) (hb : InB h w cell) (hm : cell ∉ M) :
      Reaches M h w a →
      Reaches M h w (add_knowledge a cell ((nearby_mines M h w cell : ℕ) : ℤ))

/-- The inductive invariant of truthful play, from which the spec's §3/§8
invariants follow: every sentence's count is exactly the number of true
mines among its cells, sentence cells are in bounds and unmarked,
`self.mines` holds only true in-bounds mines, and `self.safes` holds no
true mine. -/
structure Inv (M : Finset Cell) (h w : ℕ) (a : AI) : Prop where
  hdim : a.height = h
  wdim : a.width = w
  hexact : ∀ s ∈ a.knowledge, s.count = ((s.cells ∩ M).card : ℤ)
  hbnd : ∀ s ∈ a.knowledge, ∀ c ∈ s.cells, InB h w c
  hfresh : ∀ s ∈ a.knowledge, ∀ c ∈ s.cells, c ∉ a.mines ∧ c ∉ a.safes
  hminesSub : a.mines ⊆ M
  hminesBnd : ∀ c ∈ a.mines, InB h w c
  hsafes : ∀ c ∈ a.safes, c ∉ M

theorem erase_inter (c : Cell) (s M : Finset Cell) :
    (s.erase c) ∩ M = (s ∩ M).erase c := by
  ext x
  simp [and_assoc, and_left_comm, and_comm]

theorem erase_inter_of_not_mem {c : Cell} {M : Finset Cell} (hc : c ∉ M) (s : Finset Cell) :
    (s.erase c) ∩ M = s ∩ M := by
  ext x
  simp only [Finset.mem_inter, Finset.mem_erase]
  refine ⟨fun hx => ⟨hx.1.2, hx.2⟩, fun hx => ⟨⟨?_, hx.1⟩, hx.2⟩⟩
  rintro rfl
  exact hc hx.2

theorem sdiff_inter (A B M : Finset Cell) :
    (B \ A) ∩ M = (B ∩ M) \ (A ∩ M) := by
  ext x
  simp only [Finset.mem_inter, Finset.mem_sdiff, Finset.mem_inter, not_and]
  tauto

/-- `MinesweeperAI.mark_safe(cell)` with a truly safe cell preserves the
invariant. -/
theorem Inv.mark_safe {M : Finset Cell} {h w : ℕ} {a : AI} (inv : Inv M h w a)
    {c : Cell} (hc : c ∉ M) : Inv M h w (AI.mark_safe c a) := by
  refine ⟨inv.hdim, inv.wdim, ?_, ?_, ?_, inv.hminesSub, inv.hminesBnd, ?_⟩
  · intro s hs
    rcases List.mem_map.1 hs with ⟨t, ht, rfl⟩
    unfold Sentence.mark_safe
    split
    · simpa [erase_inter_of_not_mem hc] using inv.hexact t ht
    · exact inv.hexact t ht
  · intro s hs x hx
    rcases List.mem_map.1 hs with ⟨t, ht, rfl⟩
    unfold Sentence.mark_safe at hx
    split at hx
    · exact inv.hbnd t ht x (Finset.erase_subset c t.cells hx)
    · exact inv.hbnd t ht x hx
  · intro s hs x hx
    rcases List.mem_map.1 hs with ⟨t, ht, rfl⟩
    unfold Sentence.mark_safe at hx
    have hxc : x ∈ t.cells ∧ x ≠ c := by
      split at hx
      · exact ⟨Finset.erase_subset c t.cells hx, (Finset.mem_erase.1 hx).1⟩
      · next hmem => exact ⟨hx, fun he => hmem (he ▸ hx)⟩
    refine ⟨(inv.hfresh t ht x hxc.1).1, ?_⟩
    simp only [AI.mark_safe, Finset.mem_insert, not_or]
    exact ⟨hxc.2, (inv.hfresh t ht x hxc.1).2⟩
  · intro x hx
    rcases Finset.mem_insert.1 hx with rfl | hx
    · exact hc
    · exact inv.hsafes x hx

/-- `MinesweeperAI.mark_mine(cell)` with a true in-bounds mine preserves
the invariant. -/
theorem Inv.mark_mine {M : Finset Cell} {h w : ℕ} {a : AI} (inv : Inv M h w a)
    {c : Cell} (hcM : c ∈ M) (hcB : InB h w c) : Inv M h w (AI.mark_mine c a) := by
  refine ⟨inv.hdim, inv.wdim, ?_, ?_, ?_, ?_, ?_, inv.hsafes⟩
  · intro s hs
    rcases List.mem_map.1 hs with ⟨t, ht, rfl⟩
    unfold Sentence.mark_mine
    split
    · next hmem =>
      have hce : c ∈ t.cells ∩ M := Finset.mem_inter.2 ⟨hmem, hcM⟩
      have h1 : 1 ≤ (t.cells ∩ M).card := Finset.card_pos.2 ⟨c, hce⟩
      simp only [erase_inter, Finset.card_erase_of_mem hce]
      rw [inv.hexact t ht]
      omega
    · exact inv.hexact t ht
  · intro s hs x hx
    rcases List.mem_map.1 hs with ⟨t, ht, rfl⟩
    unfold Sentence.mark_mine at hx
    split at hx
    · exact inv.hbnd t ht x (Finset.erase_subset c t.cells hx)
    · exact inv.hbnd t ht x hx
  · intro s hs x hx
    rcases List.mem_map.1 hs with ⟨t, ht, rfl⟩
    unfold Sentence.mark_mine at hx
    have hxc : x ∈ t.cells ∧ x ≠ c := by
      split at hx
      · exact ⟨Finset.erase_subset c t.cells hx, (Finset.mem_erase.1 hx).1⟩
      · next hmem => exact ⟨hx, fun he => hmem (he ▸ hx)⟩
    refine ⟨?_, (inv.hfresh t ht x hxc.1).2⟩
    simp only [AI.mark_mine, Finset.mem_insert, not_or]
    exact ⟨hxc.2, (inv.hfresh t ht x hxc.1).1⟩
  · intro x hx
    rcases Finset.mem_insert.1 hx with rfl | hx
    · exact hcM
    · exact inv.hminesSub hx
  · intro x hx
    rcases Finset.mem_insert.1 hx with rfl | hx
    · exact hcB
    · exact inv.hminesBnd x hx

/-- Folding engine-level mine marks over a snapshot of true in-bounds
mines preserves the invariant. -/
theorem Inv.markAllMines {M : Finset Cell} {h w : ℕ} (cs : Multiset Cell) :
    ∀ a : AI, Inv M h w a → (∀ c ∈ cs, c ∈ M ∧ InB h w c) →
      Inv M h w (AI.markAllMines cs a) := by
  refine Multiset.induction_on cs (fun a inv _ => ?_) (fun c s ih a inv hcs => ?_)
  · simpa [AI.markAllMines] using inv
  · have h1 := hcs c (Multiset.mem_cons_self c s)
    have h2 := ih (AI.mark_mine c a) (inv.mark_mine h1.1 h1.2)
      (fun x hx => hcs x (Multiset.mem_cons_of_mem hx))
    simpa [AI.markAllMines, Multiset.foldl_cons] using h2

/-- Folding engine-level safe marks over a snapshot of true non-mines
preserves the invariant. -/
theorem Inv.markAllSafes {M : Finset Cell} {h w : ℕ} (cs : Multiset Cell) :
    ∀ a : AI, Inv M h w a → (∀ c ∈ cs, c ∉ M) →
      Inv M h w (AI.markAllSafes cs a) := by
  refine Multiset.induction_on cs (fun a inv _ => ?_) (fun c s ih a inv hcs => ?_)
  · simpa [AI.markAllSafes] using inv
  · have h1 := hcs c (Multiset.mem_cons_self c s)
    have h2 := ih (AI.mark_safe c a) (inv.mark_safe h1)
      (fun x hx => hcs x (Multiset.mem_cons_of_mem hx))
    simpa [AI.markAllSafes, Multiset.foldl_cons] using h2

/-- Under the invariant, a sentence that satisfies the `known_mines`
test (`len(cells) == count != 0`) consists entirely of true mines. -/
theorem known_mines_true {M : Finset Cell} {h w : ℕ} {a : AI} (inv : Inv M h w a)
    {s : Sentence} (hs : s ∈ a.knowledge) :
    ∀ c ∈ s.known_mines, c ∈ M ∧ InB h w c := by
  intro c hc
  unfold Sentence.known_mines at hc
  split at hc
  · next hcond =>
    have he := inv.hexact s hs
    have hcard : s.cells.card = (s.cells ∩ M).card := by
      have := hcond.1.trans he
      exact_mod_cast this
    have hsub : s.cells ∩ M = s.cells :=
      Finset.eq_of_subset_of_card_le Finset.inter_subset_left (le_of_eq hcard)
    have hcM : c ∈ M := by
      have : c ∈ s.cells ∩ M := hsub.symm ▸ hc
      exact (Finset.mem_inter.1 this).2
    exact ⟨hcM, inv.hbnd s hs c hc⟩
  · exact absurd hc (Finset.not_mem_empty c)

/-- Under the invariant, a sentence that satisfies the `known_safes`
test (`count == 0`) contains no true mine. -/
theorem known_safes_true {M : Finset Cell} {h w : ℕ} {a : AI} (inv : Inv M h w a)
    {s : Sentence} (hs : s ∈ a.knowledge) :
    ∀ c ∈ s.known_safes, c ∉ M := by
  intro c hc
  unfold Sentence.known_safes at hc
  split at hc
  · next hcond =>
    have he := inv.hexact s hs
    have hcard : (s.cells ∩ M).card = 0 := by
      rw [hcond] at he
      exact_mod_cast he.symm
    have hempty : s.cells ∩ M = ∅ := Finset.card_eq_zero.1 hcard
    intro hcM
    have : c ∈ s.cells ∩ M := Finset.mem_inter.2 ⟨hc, hcM⟩
    simp [hempty] at this
  · exact absurd hc (Finset.not_mem_empty c)

/-- One iteration of the direct-resolution sweep preserves the invariant. -/
theorem Inv.directStep {M : Finset Cell} {h w : ℕ} {a : AI} (inv : Inv M h w a)
    (n : ℕ) : Inv M h w (directStep a n) := by
  unfold Minesweeper.directStep
  cases hg : a.knowledge.get? n with
  | none => exact inv
  | some s =>
    have hs : s ∈ a.knowledge := List.get?_mem hg
    refine Inv.markAllSafes _ _ (Inv.markAllMines _ _ inv ?_) ?_
    · intro c hc
      exact known_mines_true inv hs c (Finset.mem_def.2 hc)
    · intro c hc
      exact known_safes_true inv hs c (Finset.mem_def.2 hc)

/-- The direct-resolution sweep (step 4 of `add_knowledge`) preserves the
invariant. -/
theorem Inv.directPass {M : Finset Cell} {h w : ℕ} {a : AI} (inv : Inv M h w a) :
    Inv M h w (directPass a) := by
  unfold Minesweeper.directPass
  generalize List.range a.knowledge.length = l
  induction l generalizing a with
  | nil => exact inv
  | cons n l ih => exact ih (inv.directStep n)

/-- The subset-resolution scan (step 5 of `add_knowledge`) preserves the
invariant, whatever the fuel and the loop position: every sentence it
appends is the difference of two sentences of the knowledge base along a
subset inclusion. -/
theorem Inv.subsetAux {M : Finset Cell} {h w : ℕ} (fuel : ℕ) :
    ∀ (i j : ℕ) (a : AI), Inv M h w a → Inv M h w (subsetAux fuel i j a) := by
  induction fuel with
  | zero => intro i j a inv; exact inv
  | succ fuel ih =>
    intro i j a inv
    unfold Minesweeper.subsetAux
    split
    · next hi =>
      split
      · next hj =>
        have hs1m : a.knowledge.get ⟨i, hi⟩ ∈ a.knowledge := a.knowledge.get_mem i hi
        have hs2m : a.knowledge.get ⟨j, hj⟩ ∈ a.knowledge := a.knowledge.get_mem j hj
        set s1 := a.knowledge.get ⟨i, hi⟩ with hs1
        set s2 := a.knowledge.get ⟨j, hj⟩ with hs2
        split
        · exact ih i (j + 1) a inv
        · split
          · exact ih i (j + 1) a inv
          · split
            · exact ih i (j + 1) a inv
            · split
              · next hsub =>
                refine ih i (j + 1) _ ?_
                refine ⟨inv.hdim, inv.wdim, ?_, ?_, ?_, inv.hminesSub, inv.hminesBnd,
                  inv.hsafes⟩
                · intro s hs
                  rcases List.mem_append.1 hs with hs | hs
                  · exact inv.hexact s hs
                  · have hseq : s = ⟨s2.cells \ s1.cells, s2.count - s1.count⟩ := by
                      simpa using hs
                    subst hseq
                    have hsub2 : s1.cells ∩ M ⊆ s2.cells ∩ M :=
                      Finset.inter_subset_inter hsub (Finset.Subset.refl M)
                    have hle : (s1.cells ∩ M).card ≤ (s2.cells ∩ M).card :=
                      Finset.card_le_card hsub2
                    simp only [sdiff_inter, Finset.card_sdiff hsub2]
                    rw [inv.hexact s1 hs1m, inv.hexact s2 hs2m]
                    omega
                · intro s hs x hx
                  rcases List.mem_append.1 hs with hs | hs
                  · exact inv.hbnd s hs x hx
                  · have hseq : s = ⟨s2.cells \ s1.cells, s2.count - s1.count⟩ := by
                      simpa using hs
                    subst hseq
                    exact inv.hbnd s2 hs2m x (Finset.sdiff_subset hx)
                · intro s hs x hx
                  rcases List.mem_append.1 hs with hs | hs
                  · exact inv.hfresh s hs x hx
                  · have hseq : s = ⟨s2.cells \ s1.cells, s2.count - s1.count⟩ := by
                      simpa using hs
                    subst hseq
                    exact inv.hfresh s2 hs2m x (Finset.sdiff_subset hx)
              · exact inv
      · next => exact ih (i + 1) 0 a inv
    · exact inv

/-- The full propagation tail of `add_knowledge` (steps 4 and 5)
preserves the invariant. -/
theorem Inv.propagate {M : Finset Cell} {h w : ℕ} {a : AI} (inv : Inv M h w a) :
    Inv M h w (propagate a) :=
  Inv.subsetAux _ 0 0 _ inv.directPass

/-- The eight neighbour coordinates are pairwise distinct. -/
theorem nbhd_nodup (c : Cell) : (nbhd c).Nodup := by
  simp [nbhd, List.nodup_cons, List.mem_cons, Prod.ext_iff]
  omega

theorem countP_split {α : Type} (p q r : α → Bool)
    (hpt : ∀ c, (if p c then (1 : ℕ) else 0) = (if q c then 1 else 0) + (if r c then 1 else 0)) :
    ∀ l : List α, l.countP p = l.countP q + l.countP r := by
  intro l
  induction l with
  | nil => simp
  | cons x l ih =>
    simp only [List.countP_cons, ih]
    have hx := hpt x
    cases hp : p x <;> cases hq : q x <;> cases hr : r x <;>
      simp [hp, hq, hr] at hx ⊢ <;> omega

/-- The count adjustment of step 3 of `add_knowledge` is exact: under the
invariant, the true neighbour-mine count minus the number of neighbours in
`self.mines` equals the number of true mines among the collected unknown
in-bounds neighbours. -/
theorem new_sentence_exact {M : Finset Cell} {h w : ℕ} {a1 : AI} (inv1 : Inv M h w a1)
    (cell : Cell) :
    ((nearby_mines M h w cell : ℕ) : ℤ)
        - ((nbhd cell).countP (fun c => decide (c ∈ a1.mines)) : ℕ)
      = (((((nbhd cell).filter
            (fun c => decide (InB a1.height a1.width c ∧ c ∉ a1.mines ∧ c ∉ a1.safes))).toFinset
          ∩ M).card : ℕ) : ℤ) := by
  rw [inv1.hdim, inv1.wdim]
  have hsplit := countP_split
    (fun c => decide (InB h w c ∧ c ∈ M))
    (fun c => decide (c ∈ a1.mines))
    (fun c => decide ((InB h w c ∧ c ∉ a1.mines ∧ c ∉ a1.safes) ∧ c ∈ M))
    ?_ (nbhd cell)
  · have hinter :
        ((nbhd cell).filter
            (fun c => decide (InB h w c ∧ c ∉ a1.mines ∧ c ∉ a1.safes))).toFinset ∩ M
          = ((nbhd cell).filter
            (fun c => decide ((InB h w c ∧ c ∉ a1.mines ∧ c ∉ a1.safes) ∧ c ∈ M))).toFinset := by
      ext x
      simp only [Finset.mem_inter, List.mem_toFinset, List.mem_filter, decide_eq_true_eq]
      tauto
    have hnodup : ((nbhd cell).filter
        (fun c => decide ((InB h w c ∧ c ∉ a1.mines ∧ c ∉ a1.safes) ∧ c ∈ M))).Nodup :=
      (nbhd_nodup cell).filter _
    have hcard : (((nbhd cell).filter
          (fun c => decide ((InB h w c ∧ c ∉ a1.mines ∧ c ∉ a1.safes) ∧ c ∈ M))).toFinset).card
        = (nbhd cell).countP
          (fun c => decide ((InB h w c ∧ c ∉ a1.mines ∧ c ∉ a1.safes) ∧ c ∈ M)) := by
      rw [List.toFinset_card_of_nodup hnodup, List.countP_eq_length_filter]
    rw [hinter, hcard]
    unfold nearby_mines
    omega
  · intro c
    by_cases h1 : c ∈ a1.mines
    · have hcM : c ∈ M := inv1.hminesSub h1
      have hcB : InB h w c := inv1.hminesBnd c h1
      simp [h1, hcM, hcB]
    · by_cases h2 : c ∈ M
      · have h3 : c ∉ a1.safes := fun hs => inv1.hsafes c hs h2
        simp [h1, h2, h3]
      · simp [h1, h2]

/-- `add_knowledge` with a truthful observation of an in-bounds non-mine
cell preserves the invariant. -/
theorem Inv.add_knowledge {M : Finset Cell} {h w : ℕ} {a : AI} (inv : Inv M h w a)
    {cell : Cell} (_hb : InB h w cell) (hm : cell ∉ M) :
    Inv M h w (add_knowledge a cell ((nearby_mines M h w cell : ℕ) : ℤ)) := by
  have inv0 : Inv M h w { a with moves_made := insert cell a.moves_made } :=
    ⟨inv.hdim, inv.wdim, inv.hexact, inv.hbnd, inv.hfresh, inv.hminesSub,
      inv.hminesBnd, inv.hsafes⟩
  have inv1 : Inv M h w (AI.mark_safe cell { a with moves_made := insert cell a.moves_made }) :=
    inv0.mark_safe hm
  simp only [Minesweeper.add_knowledge]
  refine Inv.propagate ?_
  set a1 := AI.mark_safe cell { a with moves_made := insert cell a.moves_made } with ha1
  refine ⟨inv1.hdim, inv1.wdim, ?_, ?_, ?_, inv1.hminesSub, inv1.hminesBnd, inv1.hsafes⟩
  · intro s hs
    rcases List.mem_append.1 hs with hs | hs
    · exact inv1.hexact s hs
    · have hseq : s = ⟨((nbhd cell).filter
          (fun c => decide (InB a1.height a1.width c ∧ c ∉ a1.mines ∧ c ∉ a1.safes))).toFinset,
          ((nearby_mines M h w cell : ℕ) : ℤ)
            - ((nbhd cell).countP (fun c => decide (c ∈ a1.mines)) : ℕ)⟩ := by
        simpa using hs
      subst hseq
      exact new_sentence_exact inv1 cell
  · intro s hs x hx
    rcases List.mem_append.1 hs with hs | hs
    · exact inv1.hbnd s hs x hx
    · have hseq : s = ⟨((nbhd cell).filter
          (fun c => decide (InB a1.height a1.width c ∧ c ∉ a1.mines ∧ c ∉ a1.safes))).toFinset,
          ((nearby_mines M h w cell : ℕ) : ℤ)
            - ((nbhd cell).countP (fun c => decide (c ∈ a1.mines)) : ℕ)⟩ := by
        simpa using hs
      subst hseq
      have hx' := List.mem_filter.1 (List.mem_toFinset.1 hx)
      have := of_decide_eq_true hx'.2
      rw [inv1.hdim, inv1.wdim] at this
      exact this.1
  · intro s hs x hx
    rcases List.mem_append.1 hs with hs | hs
    · exact inv1.hfresh s hs x hx
    · have hseq : s = ⟨((nbhd cell).filter
          (fun c => decide (InB a1.height a1.width c ∧ c ∉ a1.mines ∧ c ∉ a1.safes))).toFinset,
          ((nearby_mines M h w cell : ℕ) : ℤ)
            - ((nbhd cell).countP (fun c => decide (c ∈ a1.mines)) : ℕ)⟩ := by
        simpa using hs
      subst hseq
      have hx' := List.mem_filter.1 (List.mem_toFinset.1 hx)
      have := of_decide_eq_true hx'.2
      exact this.2

/-- Every state of a truthful game trace satisfies the invariant. -/
theorem reaches_inv {M : Finset Cell} {h w : ℕ} {a : AI} (hr : Reaches M h w a) :
    Inv M h w a := by
  induction hr with
  | init =>
    refine ⟨rfl, rfl, ?_, ?_, ?_, ?_, ?_, ?_⟩ <;> simp [AI.init]
  | step a cell hb hm _ ih => exact ih.add_knowledge hb hm

theorem mem_possible_moves (a : AI) (c : Cell) :
    c ∈ possible_moves a ↔
      (∃ i j : ℕ, i < a.height ∧ j < a.width ∧ c = ((i : ℤ), (j : ℤ)))
      ∧ c ∉ a.moves_made ∧ c ∉ a.mines := by
  unfold possible_moves
  simp only [List.mem_flatMap, List.mem_filterMap, List.mem_range,
    Option.ite_none_right_eq_some, Option.some.injEq]
  constructor
  · rintro ⟨i, hi, x, hx, hcond, rfl⟩
    obtain ⟨j, hj, rfl⟩ : ∃ j : ℕ, j < a.width ∧ x = (j : ℤ) := by simpa using hx
    exact ⟨⟨i, j, hi, hj, rfl⟩, hcond⟩
  · rintro ⟨⟨i, j, hi, hj, rfl⟩, hcond⟩
    refine ⟨i, hi, (j : ℤ), ?_, hcond, rfl⟩
    have : ∃ j0 : ℕ, j0 < a.width ∧ ((j : ℤ)) = (j0 : ℤ) := ⟨j, hj, rfl⟩
    simpa using this

theorem make_random_move_eq_none_iff (a : AI) (k : ℕ) :
    make_random_move a k = none ↔ possible_moves a = [] := by
  unfold make_random_move
  split
  · next hne =>
    have hne2 : possible_moves a ≠ [] := fun h0 => hne (by simp [h0])
    simp [hne2]
  · next hne =>
    have h0 : possible_moves a = [] := List.length_eq_zero.1 (not_not.1 hne)
    simp [h0]

theorem make_random_move_mem {a : AI} {k : ℕ} {c : Cell}
    (hc : make_random_move a k = some c) : c ∈ possible_moves a := by
  unfold make_random_move at hc
  split at hc
  · next h =>
    rcases Option.some.inj hc with rfl
    exact List.get_mem _ _ _
  · exact absurd hc (by simp)

theorem make_random_move_some_of_ne_nil (a : AI) (k : ℕ)
    (h : possible_moves a ≠ []) :
    ∃ c, make_random_move a k = some c ∧ c ∈ possible_moves a := by
  have hlen : (possible_moves a).length ≠ 0 := fun h0 => h (List.length_eq_zero.1 h0)
  unfold make_random_move
  rw [dif_pos hlen]
  exact ⟨_, rfl, List.get_mem _ _ _⟩

/-- C1 (code bug at a concrete truthful trace): on a 1×4 board whose only
mine is `(0, 2)`, the two truthful calls `add_knowledge((0,1), 1)` and
`add_knowledge((0,3), 1)` return with the sentence `{(0,0)} = 0` still in
the knowledge base and `(0, 0)` not in `known_safe`; re-running the
direct-resolution pass marks `(0, 0)` safe, so the state `add_knowledge`
returned was not a fixed point of its own propagation passes.  (The second
call's single direct sweep resolved the later sentence `{(0,2)} = 1` after
it had already visited the earlier sentence, and never revisited it.) -/
theorem add_knowledge_returns_before_fixed_point :
    nearby_mines {((0 : ℤ), (2 : ℤ))} 1 4 (0, 1) = 1
    ∧ nearby_mines {((0 : ℤ), (2 : ℤ))} 1 4 (0, 3) = 1
    ∧ (add_knowledge (add_knowledge (AI.init 1 4) (0, 1) 1) (0, 3) 1).knowledge
        = [⟨{(0, 0)}, 0⟩, ⟨∅, 0⟩]
    ∧ (0, 0) ∉ (add_knowledge (add_knowledge (AI.init 1 4) (0, 1) 1) (0, 3) 1).safes
    ∧ (0, 0) ∈
        (directPass (add_knowledge (add_knowledge (AI.init 1 4) (0, 1) 1) (0, 3) 1)).safes := by
  decide

/-- C2 (code bug): with the knowledge base holding, in order,
`{(0,0),(0,1)} = 1`, `{(1,0),(1,1),(1,2)} = 2` and `{(1,0),(1,1)} = 1`,
the pair (third, second) satisfies every condition of the subset rule, yet
one full propagation cycle leaves the state completely unchanged: the
subset scan hits the non-subset pair (first, second) and the source's
`else: return None` abandons the whole scan, so the derived sentence
`{(1,2)} = 1` is never added and no consequence of it is ever marked. -/
theorem subset_resolution_aborts_scan :
    (({((1 : ℤ), (0 : ℤ)), (1, 1)} : Finset Cell) ⊆ {(1, 0), (1, 1), (1, 2)})
    ∧ propagate ⟨8, 8, ∅, ∅, ∅,
        [⟨{(0, 0), (0, 1)}, 1⟩, ⟨{(1, 0), (1, 1), (1, 2)}, 2⟩, ⟨{(1, 0), (1, 1)}, 1⟩]⟩
      = ⟨8, 8, ∅, ∅, ∅,
        [⟨{(0, 0), (0, 1)}, 1⟩, ⟨{(1, 0), (1, 1), (1, 2)}, 2⟩, ⟨{(1, 0), (1, 1)}, 1⟩]⟩
    ∧ (Sentence.mk {((1 : ℤ), (2 : ℤ))} 1) ∉ (propagate ⟨8, 8, ∅, ∅, ∅,
        [⟨{(0, 0), (0, 1)}, 1⟩, ⟨{(1, 0), (1, 1), (1, 2)}, 2⟩, ⟨{(1, 0), (1, 1)}, 1⟩]⟩).knowledge := by
  decide

/-- C3 (counterexample to the claim as stated): with the knowledge base
holding `{(0,0),(0,1)} = 1` and `{(0,0)} = 1` in the order given,
propagation appends nothing (the knowledge list still has length 2, so
the subset-resolution pass yielded no sentence) and `(0, 1)` is not added
to `known_safe`. -/
theorem scenario3_fails_as_stated :
    (propagate ⟨8, 8, ∅, ∅, ∅, [⟨{(0, 0), (0, 1)}, 1⟩, ⟨{(0, 0)}, 1⟩]⟩).knowledge.length = 2
    ∧ ((0 : ℤ), (1 : ℤ)) ∉ (propagate ⟨8, 8, ∅, ∅, ∅,
        [⟨{(0, 0), (0, 1)}, 1⟩, ⟨{(0, 0)}, 1⟩]⟩).safes := by
  decide

/-- C3 (amended): with the knowledge base holding `{(0,0),(0,1)} = 1` and
`{(0,0)} = 1`, propagation's direct-resolution pass (not the subset pass)
marks `(0, 0)` as a mine and thereby mutates the first sentence to
`{(0,1)} = 0`, which remains in the knowledge base; `(0, 1)` is not added
to `known_safe` by the returning propagation — a further direct pass
would mark it. -/
theorem scenario3_actual_behavior :
    ((0 : ℤ), (0 : ℤ)) ∈ (propagate ⟨8, 8, ∅, ∅, ∅,
        [⟨{(0, 0), (0, 1)}, 1⟩, ⟨{(0, 0)}, 1⟩]⟩).mines
    ∧ (propagate ⟨8, 8, ∅, ∅, ∅, [⟨{(0, 0), (0, 1)}, 1⟩, ⟨{(0, 0)}, 1⟩]⟩).knowledge
        = [⟨{(0, 1)}, 0⟩, ⟨∅, 0⟩]
    ∧ ((0 : ℤ), (1 : ℤ)) ∉ (propagate ⟨8, 8, ∅, ∅, ∅,
        [⟨{(0, 0), (0, 1)}, 1⟩, ⟨{(0, 0)}, 1⟩]⟩).safes
    ∧ ((0 : ℤ), (1 : ℤ)) ∈ (directPass (propagate ⟨8, 8, ∅, ∅, ∅,
        [⟨{(0, 0), (0, 1)}, 1⟩, ⟨{(0, 0)}, 1⟩]⟩)).safes := by
  decide

/-- C4: at every state reachable by truthful `observe` calls, every
constraint of the knowledge base satisfies `0 ≤ count ≤ |cells|`. -/
theorem constraint_count_bounds (M : Finset Cell) (h w : ℕ) (a : AI)
    (hr : Reaches M h w a) :
    ∀ s ∈ a.knowledge, 0 ≤ s.count ∧ s.count ≤ (s.cells.card : ℤ) := by
  intro s hs
  have inv := reaches_inv hr
  have he := inv.hexact s hs
  refine ⟨?_, ?_⟩
  · rw [he]
    exact_mod_cast Nat.zero_le _
  · rw [he]
    exact_mod_cast Finset.card_le_card Finset.inter_subset_left

/-- C4 witness: the invariant instantiated on the truthful trace
`observe((1,1), 0)` on an empty 8×8 board, at the sentence `{} = 0` the
trace leaves in the knowledge base. -/
theorem constraint_count_bounds_witness :
    0 ≤ (Sentence.mk (∅ : Finset Cell) 0).count
      ∧ (Sentence.mk (∅ : Finset Cell) 0).count
        ≤ (((Sentence.mk (∅ : Finset Cell) 0).cells.card : ℕ) : ℤ) :=
  constraint_count_bounds ∅ 8 8 _
    (Reaches.step (AI.init 8 8) (1, 1) (by decide) (by decide) Reaches.init)
    ⟨∅, 0⟩ (by decide)

/-- C5: at every state reachable by truthful `observe` calls, no cell of
`known_mines` or `known_safe` is a member of any constraint's cell set. -/
theorem marked_cells_not_in_constraints (M : Finset Cell) (h w : ℕ) (a : AI)
    (hr : Reaches M h w a) :
    ∀ c : Cell, c ∈ a.mines ∨ c ∈ a.safes → ∀ s ∈ a.knowledge, c ∉ s.cells := by
  intro c hc s hs hmem
  have inv := reaches_inv hr
  rcases hc with hc | hc
  · exact (inv.hfresh s hs c hmem).1 hc
  · exact (inv.hfresh s hs c hmem).2 hc

/-- C5 witness: on the truthful trace `observe((1,1), 0)` on an empty 8×8
board, the safe cell `(1, 1)` is in no sentence of the knowledge base. -/
theorem marked_cells_not_in_constraints_witness :
    ((1 : ℤ), (1 : ℤ)) ∉ (Sentence.mk (∅ : Finset Cell) 0).cells :=
  marked_cells_not_in_constraints ∅ 8 8 _
    (Reaches.step (AI.init 8 8) (1, 1) (by decide) (by decide) Reaches.init)
    (1, 1) (Or.inr (by decide)) ⟨∅, 0⟩ (by decide)

/-- C6: at every state reachable by truthful `observe` calls,
`known_mines` and `known_safe` are disjoint. -/
theorem known_mines_safes_disjoint (M : Finset Cell) (h w : ℕ) (a : AI)
    (hr : Reaches M h w a) : a.mines ∩ a.safes = ∅ := by
  have inv := reaches_inv hr
  ext x
  simp only [Finset.mem_inter, Finset.not_mem_empty, iff_false, not_and]
  intro hx hxs
  exact inv.hsafes x hxs (inv.hminesSub hx)

/-- C6 witness: disjointness at the state reached by the truthful call
`observe((1,1), 0)` on an empty 8×8 board. -/
theorem known_mines_safes_disjoint_witness :
    (add_knowledge (AI.init 8 8) (1, 1) ((nearby_mines ∅ 8 8 (1, 1) : ℕ) : ℤ)).mines
      ∩ (add_knowledge (AI.init 8 8) (1, 1) ((nearby_mines ∅ 8 8 (1, 1) : ℕ) : ℤ)).safes
      = ∅ :=
  known_mines_safes_disjoint ∅ 8 8 _
    (Reaches.step (AI.init 8 8) (1, 1) (by decide) (by decide) Reaches.init)

/-- C7: from a fresh engine on an 8×8 grid, the single call
`observe((1,1), 0)` leaves all eight in-bounds neighbours of `(1, 1)` in
`known_safe`. -/
theorem observe_zero_marks_all_neighbors_safe :
    (0, 0) ∈ (add_knowledge (AI.init 8 8) (1, 1) 0).safes
    ∧ (0, 1) ∈ (add_knowledge (AI.init 8 8) (1, 1) 0).safes
    ∧ (0, 2) ∈ (add_knowledge (AI.init 8 8) (1, 1) 0).safes
    ∧ (1, 0) ∈ (add_knowledge (AI.init 8 8) (1, 1) 0).safes
    ∧ (1, 2) ∈ (add_knowledge (AI.init 8 8) (1, 1) 0).safes
    ∧ (2, 0) ∈ (add_knowledge (AI.init 8 8) (1, 1) 0).safes
    ∧ (2, 1) ∈ (add_knowledge (AI.init 8 8) (1, 1) 0).safes
    ∧ (2, 2) ∈ (add_knowledge (AI.init 8 8) (1, 1) 0).safes := by
  decide

/-- C8: `Sentence.known_mines` returns the full cell set when
`count = |cells|` and `count ≠ 0`, and the empty set in every other case;
being a pure function of the sentence, it modifies nothing. -/
theorem known_mines_query_spec (s : Sentence) :
    ((s.cells.card : ℤ) = s.count ∧ s.count ≠ 0 → s.known_mines = s.cells)
    ∧ (¬((s.cells.card : ℤ) = s.count ∧ s.count ≠ 0) → s.known_mines = ∅) := by
  constructor <;> intro hcond <;> simp [Sentence.known_mines, hcond]

/-- C8 witness: `known_mines` on the sentence `{(0,0)} = 1`. -/
theorem known_mines_query_spec_witness :
    (Sentence.mk {((0 : ℤ), (0 : ℤ))} 1).known_mines = {((0 : ℤ), (0 : ℤ))} :=
  (known_mines_query_spec ⟨{(0, 0)}, 1⟩).1 (by decide)

/-- C9: `make_random_move` (for any value of the injected random index)
returns a cell outside `moves_made` and `mines` whenever some grid cell is
outside both, and returns `none` exactly when every grid cell is in
`moves_made` or in `mines`. -/
theorem make_random_move_spec (a : AI) (k : ℕ) :
    ((∃ i j : ℕ, i < a.height ∧ j < a.width ∧ ((i : ℤ), (j : ℤ)) ∉ a.moves_made
        ∧ ((i : ℤ), (j : ℤ)) ∉ a.mines) →
      ∃ c, make_random_move a k = some c ∧ c ∉ a.moves_made ∧ c ∉ a.mines)
    ∧ (make_random_move a k = none ↔
        ∀ i j : ℕ, i < a.height → j < a.width →
          ((i : ℤ), (j : ℤ)) ∈ a.moves_made ∨ ((i : ℤ), (j : ℤ)) ∈ a.mines)
    ∧ (∀ c : Cell, make_random_move a k = some c → c ∉ a.moves_made ∧ c ∉ a.mines) := by
  refine ⟨?_, ?_, ?_⟩
  · rintro ⟨i, j, hi, hj, h1, h2⟩
    have hmem : ((i : ℤ), (j : ℤ)) ∈ possible_moves a :=
      (mem_possible_moves a _).2 ⟨⟨i, j, hi, hj, rfl⟩, h1, h2⟩
    rcases make_random_move_some_of_ne_nil a k (List.ne_nil_of_mem hmem) with ⟨c, hc, hcl⟩
    exact ⟨c, hc, ((mem_possible_moves a c).1 hcl).2⟩
  · rw [make_random_move_eq_none_iff]
    constructor
    · intro hnil i j hi hj
      by_contra hcon
      push_neg at hcon
      have : ((i : ℤ), (j : ℤ)) ∈ possible_moves a :=
        (mem_possible_moves a _).2 ⟨⟨i, j, hi, hj, rfl⟩, hcon.1, hcon.2⟩
      rw [hnil] at this
      exact absurd this (List.not_mem_nil _)
    · intro hall
      rcases hc : possible_moves a with _ | ⟨c, l⟩
      · rfl
      · have hmem : c ∈ possible_moves a := by rw [hc]; exact List.mem_cons_self c l
        rcases (mem_possible_moves a c).1 hmem with ⟨⟨i, j, hi, hj, rfl⟩, h1, h2⟩
        rcases hall i j hi hj with hd | hd
        · exact absurd hd h1
        · exact absurd hd h2
  · intro c hc
    exact ((mem_possible_moves a c).1 (make_random_move_mem hc)).2

/-- C9 witness: on a fresh 1×1 engine the chosen cell `(0, 0)` is outside
`moves_made` and `mines`. -/
theorem make_random_move_spec_witness :
    ((0 : ℤ), (0 : ℤ)) ∉ (AI.init 1 1).moves_made
      ∧ ((0 : ℤ), (0 : ℤ)) ∉ (AI.init 1 1).mines :=
  (make_random_move_spec (AI.init 1 1) 0).2.2 (0, 0) (by decide)

/-- C10: `make_random_move` mutates nothing: in the state-passing reading
of the source method (which contains no assignment to `self`), the
returned state's `moves_made`, `mines`, `safes` and knowledge base are
those of the receiver. -/
theorem make_random_move_frame (a : AI) (k : ℕ) :
    (make_random_move_state a k).2.moves_made = a.moves_made
    ∧ (make_random_move_state a k).2.mines = a.mines
    ∧ (make_random_move_state a k).2.safes = a.safes
    ∧ (make_random_move_state a k).2.knowledge = a.knowledge :=
  ⟨rfl, rfl, rfl, rfl⟩

end Minesweeper
